import Mathlib

/-!
# Verification of the arithmetic kernel and exercise engine of `src/App.tsx`

This file gives a shallow embedding, in Lean 4, of the arithmetic kernel
(`isPrime`, `smallestFactor`, `primeFactors`, `divisibilityInfo`,
`normalizeFactorsInput`, `multisetEqual`, `productOf`) and of the exercise
engine (the `generateExercise` branches and the `submit` grading function)
of the math-studies project, together with proofs of the specification's
claims about them.

Modelling conventions:
* JavaScript numbers are modelled as exact rationals (`ℚ`) where fractional
  or negative values can occur (the output of `normalizeFactorsInput`), and
  as `Nat` where the source only ever handles non-negative integers
  (`isPrime`, `smallestFactor`, `primeFactors`, generated exercise data).
  All concrete values reached by the claims are small integers or simple
  decimals, on which JS float arithmetic is exact, so the rational model is
  faithful on the inputs the claims quantify over.
* `while` loops become recursive functions; a guard that is an invariant of
  the calling context (noted at each definition) is added where Lean needs
  it for termination.
* The human-readable message strings built by the source are modelled by
  the inductive `ExplainMsg`, one constructor per template, carrying the
  values interpolated into the template.
-/

namespace MathStudies

/-- Embedding of `isPrime`'s trial-division loop:
`for (let d = 3; d * d <= n; d += 2) { if (n % d === 0) return false; }
return true;`. -/
def isPrimeLoop (n d : Nat) : Bool :=
  if d * d ≤ n then
    if n % d = 0 then false else isPrimeLoop n (d + 2)
  else true
termination_by n + 1 - d
decreasing_by
  rename_i h _
  have hd : d ≤ n := by
    rcases Nat.eq_zero_or_pos d with h0 | h1
    · omega
    · calc d ≤ d * d := Nat.le_mul_of_pos_left d h1
        _ ≤ n := h
  omega

/-- Embedding of `isPrime`:
`if (n < 2) return false; if (n === 2) return true;
if (n % 2 === 0) return false;` then the odd trial-division loop. -/
def isPrime (n : Nat) : Bool :=
  if n < 2 then false
  else if n = 2 then true
  else if n % 2 = 0 then false
  else isPrimeLoop n 3

/-- Embedding of `smallestFactor`'s loop:
`for (let d = 3; d * d <= n; d += 2) { if (n % d === 0) return d; }
return null;`. -/
def factorLoop (n d : Nat) : Option Nat :=
  if d * d ≤ n then
    if n % d = 0 then some d else factorLoop n (d + 2)
  else none
termination_by n + 1 - d
decreasing_by
  rename_i h _
  have hd : d ≤ n := by
    rcases Nat.eq_zero_or_pos d with h0 | h1
    · omega
    · calc d ≤ d * d := Nat.le_mul_of_pos_left d h1
        _ ≤ n := h
  omega

/-- Embedding of `smallestFactor`:
`if (n < 2) return null; if (n % 2 === 0) return 2;` then the loop. -/
def smallestFactor (n : Nat) : Option Nat :=
  if n < 2 then none
  else if n % 2 = 0 then some 2
  else factorLoop n 3

/-- Embedding of the inner loop of `primeFactors`:
`while (x % d === 0) { factors.push(d); x = x / d; }`, returning the list of
pushed factors together with the final value of `x`.  The guard `2 ≤ d ∧ 1 ≤ x`
is an invariant of the calling context (`d` starts at `2` and only grows,
`x` stays positive when divided by a divisor `≥ 2`), added for termination. -/
def innerDiv (x d : Nat) : List Nat × Nat :=
  if h : 2 ≤ d ∧ 1 ≤ x ∧ x % d = 0 then
    let r := innerDiv (x / d) d
    (d :: r.1, r.2)
  else ([], x)
termination_by x
decreasing_by exact Nat.div_lt_self h.2.1 h.1

/-- Embedding of the outer loop of `primeFactors`:
`while (x >= 2 && d * d <= x) { <inner loop>; d = d === 2 ? 3 : d + 2; }
if (x > 1) factors.push(x);`. -/
def outerLoop (x d : Nat) : List Nat :=
  if h : 2 ≤ x ∧ d * d ≤ x then
    (innerDiv x d).1 ++ outerLoop (innerDiv x d).2 (if d = 2 then 3 else d + 2)
  else if 1 < x then [x] else []
termination_by (x, x + 1 - d)
decreasing_by
  have hle : ∀ y e : Nat, (innerDiv y e).2 ≤ y := by
    intro y e
    induction y, e using innerDiv.induct with
    | case1 y e hc ihc =>
      rw [innerDiv, dif_pos hc]
      exact le_trans ihc (Nat.div_le_self y e)
    | case2 y e hc =>
      rw [innerDiv, dif_neg hc]
  rcases lt_or_eq_of_le (hle x d) with hlt | heq
  · exact Prod.Lex.left _ _ hlt
  · rw [heq]
    apply Prod.Lex.right
    have hd : d ≤ x := by
      rcases Nat.eq_zero_or_pos d with h0 | h1
      · omega
      · calc d ≤ d * d := Nat.le_mul_of_pos_left d h1
          _ ≤ x := h.2
    split <;> omega

/-- Embedding of `primeFactors`: the trial-division loop starting with
`x = n, d = 2`. -/
def primeFactors (n : Nat) : List Nat := outerLoop n 2

/-- `x` has no divisor in `[2, d)`. -/
def NoSmallFactor (x d : Nat) : Prop := ∀ m, 2 ≤ m → m < d → ¬ m ∣ x

/-- Invariant of the outer trial-division loop: the candidate divisor is `2`
or odd, and all smaller candidates have been ruled out. -/
def LoopInv (x d : Nat) : Prop := 2 ≤ d ∧ (d = 2 ∨ d % 2 = 1) ∧ NoSmallFactor x d

/-- Sum of the decimal digits of `n`.  Models the source's
`String(n).split("").filter(/\d/).reduce((a, b) => a + Number(b), 0)`
(for a natural number every character of the decimal rendering is a digit,
so the filter keeps everything). -/
def digitSum (n : Nat) : Nat :=
  if n = 0 then 0 else n % 10 + digitSum (n / 10)
termination_by n
decreasing_by
  rename_i h
  exact Nat.div_lt_self (by omega) (by omega)

/-- The record returned by `divisibilityInfo`. -/
structure DivisibilityInfo where
  by2 : Bool
  by3 : Bool
  by5 : Bool
  by6 : Bool
  by10 : Bool

/-- Embedding of `divisibilityInfo`: direct modulo tests except `by3`,
which uses the digit-sum rule. -/
def divisibilityInfo (n : Nat) : DivisibilityInfo :=
  { by2 := n % 2 == 0
    by3 := digitSum n % 3 == 0
    by5 := n % 5 == 0
    by6 := n % 6 == 0
    by10 := n % 10 == 0 }

/-- Char map for `.replace(/[×xX*·]/g, " ")` (applied after `toLowerCase`,
so the `X` case is redundant in practice but kept for faithfulness). -/
def replaceMults (c : Char) : Char :=
  if c = '×' ∨ c = 'x' ∨ c = 'X' ∨ c = '*' ∨ c = '·' then ' ' else c

/-- Char map for `.replace(/[;,]/g, " ")`. -/
def replacePunct (c : Char) : Char :=
  if c = ';' ∨ c = ',' then ' ' else c

/-- Whitespace tokenizer accumulating the current (reversed) token.
Models the net effect of `.replace(/\s+/g, " ").trim()` followed by
`.split(" ")`: the maximal runs of non-whitespace characters, in order. -/
def tokenizeAux (acc : List Char) (cs : List Char) : List (List Char) :=
  match cs with
  | [] => if acc.isEmpty then [] else [acc.reverse]
  | c :: rest =>
    if c.isWhitespace then
      if acc.isEmpty then tokenizeAux [] rest
      else acc.reverse :: tokenizeAux [] rest
    else tokenizeAux (c :: acc) rest

def tokenize (cs : List Char) : List (List Char) := tokenizeAux [] cs

/-- Numeric value of a decimal digit character (`'0'` ↦ 0 … `'9'` ↦ 9). -/
def charVal (c : Char) : Nat := c.toNat - 48

/-- Value of a big-endian string of decimal digit characters. -/
def digitsVal (cs : List Char) : Nat :=
  cs.foldl (fun a c => 10 * a + charVal c) 0

/-- Parse an unsigned decimal numeral, with an optional single decimal
point (`"12"`, `"2.5"`, `"2."`, `".5"`), as an exact rational.  Models the
behaviour of JavaScript `Number()` on the unsigned part of a plain decimal
token; tokens of any other shape (empty, letters, several dots, hex,
exponent notation) are rejected (`none`), modelling `NaN` — which the
source then drops via `Number.isFinite`. -/
def parseUnsigned (cs : List Char) : Option ℚ :=
  if cs ≠ [] ∧ cs.all Char.isDigit then some ((digitsVal cs : ℚ))
  else
    match cs.dropWhile (fun c => c ≠ '.') with
    | '.' :: fp =>
      if (cs.takeWhile (fun c => c ≠ '.') ≠ [] ∨ fp ≠ []) ∧
          (cs.takeWhile (fun c => c ≠ '.')).all Char.isDigit ∧ fp.all Char.isDigit then
        some (mkRat (digitsVal (cs.takeWhile (fun c => c ≠ '.')) * 10 ^ fp.length +
          digitsVal fp) (10 ^ fp.length))
      else none
    | _ => none

/-- Parse one token as a JavaScript number (optional sign, then an unsigned
decimal numeral); `none` models `NaN`. -/
def jsNumber? (cs : List Char) : Option ℚ :=
  match cs with
  | [] => none
  | c :: rest =>
    if c = '-' then (parseUnsigned rest).map Neg.neg
    else if c = '+' then parseUnsigned rest
    else parseUnsigned cs

/-- The character-level cleaning pipeline of `normalizeFactorsInput`:
lower-case, then the two separator replacements. -/
def cleanedAll (cs : List Char) : List Char :=
  ((cs.map Char.toLower).map replaceMults).map replacePunct

/-- Embedding of `normalizeFactorsInput` on character lists:
lower-case, map the multiplication-sign characters and the punctuation
separators to spaces, split on whitespace runs, parse each token as a
number and keep the finite results. -/
def normalizeCore (cs : List Char) : List ℚ :=
  (tokenize (cleanedAll cs)).filterMap jsNumber?

/-- Embedding of `normalizeFactorsInput` on strings. -/
def normalizeFactorsInput (text : String) : List ℚ := normalizeCore text.toList

/-- The decimal rendering of a natural number as a character list
(the model of `String(n)` and of joining factors for display). -/
def natReprChars (n : Nat) : List Char :=
  if n = 0 then ['0'] else ((Nat.digits 10 n).map (fun d => Nat.digitChar d)).reverse

/-- Join a list of tokens with a fixed separator (the "canonical join" of
the round-trip property: `[2, 2, 3]` joined with `"x"` is `"2x2x3"`). -/
def joinSep (sep : List Char) : List (List Char) → List Char
  | [] => []
  | [t] => t
  | t :: ts => t ++ sep ++ joinSep sep ts

/-- Whitespace-trim on character lists; models `String.prototype.trim`. -/
def trimChars (cs : List Char) : List Char :=
  (((cs.dropWhile Char.isWhitespace).reverse.dropWhile Char.isWhitespace)).reverse

/-- Case-folding on character lists; models `String.prototype.toLowerCase`. -/
def lowerChars (cs : List Char) : List Char := cs.map Char.toLower

/-- Insert into a sorted list (ascending). -/
def insertSorted (x : ℚ) : List ℚ → List ℚ
  | [] => [x]
  | y :: ys => if x ≤ y then x :: y :: ys else y :: insertSorted x ys

/-- Ascending numeric sort; models `[...a].sort((x, y) => x - y)`. -/
def sortQ (l : List ℚ) : List ℚ := l.foldr insertSorted []

/-- Embedding of `multisetEqual`: equal lengths, and element-wise equal
after sorting both ascending. -/
def multisetEqual (a b : List ℚ) : Bool :=
  a.length == b.length && sortQ a == sortQ b

/-- Embedding of `productOf`: `arr.reduce((acc, v) => acc * v, 1)`. -/
def productOf (arr : List ℚ) : ℚ := arr.foldl (fun acc v => acc * v) 1

/-- Read a JS number that is known to be a non-negative integer back as a
natural number (used where the grading code feeds already-validated factors
to the integer-only kernel functions). -/
def ratToNat (q : ℚ) : Nat := q.num.toNat

/-- The message templates the exercise engine interpolates, one constructor
per template, carrying the interpolated values.  (The rendered Portuguese
strings themselves are display-only.) -/
inductive ExplainMsg where
  | digitSumMsg (n sum : Nat) (isMultiple : Bool)
  | ruleMsg (d : Nat)
  | primeYes (n : Nat)
  | primeNo (n : Nat) (smallest : Option Nat)
  | factorListMsg (n : Nat) (factors : List Nat)
  | powerMsg (base exp value : Nat)
  | remainderMsg (a b q r : Nat)
  | formatHint
  | useIntegersGE2
  | nonPrimes (ks : List ℚ)
  | productMismatch (prod : ℚ) (value : Nat)
  | factorVerdict (ok : Bool) (value : Nat) (expected : List Nat)
  | genericError
deriving DecidableEq

/-- A generated exercise (the fields of the records `generateExercise`
returns; `value`/`expected` are only populated for `"fatoracao"`; `value = 0`
models the field being absent, which is JS-falsy like `0` itself). -/
structure Exercise where
  type : String
  value : Nat := 0
  expected : List Nat := []
  answer : String
  explain : ExplainMsg

/-- The outcome of `submit`: the `correct`/`expected`/`explain` triple the
source passes to `setFeedback`. -/
structure GradeResult where
  correct : Bool
  expected : String
  explain : ExplainMsg

/-- The candidates pool of the `"primos"` branch of `generateExercise`. -/
def primosCandidates : List Nat := [11, 12, 13, 14, 15, 16, 17, 19, 21, 23, 25, 29, 31, 33]

/-- The subject-value pool of the `"fatoracao"` branch of `generateExercise`. -/
def fatoracaoPool : List Nat := [12, 18, 20, 24, 36, 45, 50, 60]

/-- The divisor pool of the `"divisibilidade"` branch of `generateExercise`. -/
def divisibilidadeDivisors : List Nat := [2, 3, 5, 10]

/-- The `"divisibilidade"` branch of `generateExercise`, with the random
draws (`n` in `[10, 199]`, divisor `d` in `{2,3,5,10}`) passed as arguments
(the source's `by`).  The inline digit-sum in the source's template is the
same computation as `digitSum`. -/
def genDivisibilidade (n d : Nat) : Exercise :=
  { type := "divisibilidade"
    answer := if n % d = 0 then "S" else "N"
    explain := if d = 3 then .digitSumMsg n (digitSum n) (decide (n % d = 0)) else .ruleMsg d }

/-- The `"primos"` branch of `generateExercise`, with the drawn candidate
`n` passed as an argument. -/
def genPrimos (n : Nat) : Exercise :=
  { type := "primos"
    answer := if isPrime n then "sim" else "não"
    explain := if isPrime n then .primeYes n else .primeNo n (smallestFactor n) }

/-- The `"fatoracao"` branch of `generateExercise`, with the drawn subject
value `n` passed as an argument. -/
def genFatoracao (n : Nat) : Exercise :=
  { type := "fatoracao"
    value := n
    expected := primeFactors n
    answer := String.intercalate " × " ((primeFactors n).map (fun p => toString p))
    explain := .factorListMsg n (primeFactors n) }

/-- The `"potenciacao"` branch of `generateExercise`, with the drawn base
and exponent passed as arguments. -/
def genPotenciacao (base exp : Nat) : Exercise :=
  { type := "potenciacao"
    answer := toString (base ^ exp)
    explain := .powerMsg base exp (base ^ exp) }

/-- The `"resto"` branch of `generateExercise`, with the drawn dividend and
divisor passed as arguments. -/
def genResto (a b : Nat) : Exercise :=
  { type := "resto"
    answer := toString (a % b)
    explain := .remainderMsg a b (a / b) (a % b) }

/-- Embedding of the `"fatoracao"` branch of `submit`.  `expectedL` is the
exercise's `expected` list (the source's `ex.expected || primeFactors(ex.value)`
fallback only fires for an absent field, which the model's always-populated
list makes unreachable).  In the prime test and the non-prime filter every
`k` has already passed the integer-`≥ 2` check, so reading it back as a
natural number via `ratToNat` is exact. -/
def gradeFactorization (value : Nat) (expectedL : List Nat) (answer : String)
    (input : String) : GradeResult :=
  let factors := normalizeFactorsInput input
  if factors.length = 0 then
    { correct := false, expected := answer, explain := .formatHint }
  else if ¬ (∀ k ∈ factors, k.den = 1 ∧ 2 ≤ k) then
    { correct := false, expected := answer, explain := .useIntegersGE2 }
  else if ∃ k ∈ factors, isPrime (ratToNat k) = false then
    { correct := false, expected := answer
      explain := .nonPrimes (factors.filter fun k => isPrime (ratToNat k) = false) }
  else if productOf factors ≠ (value : ℚ) then
    { correct := false, expected := answer
      explain := .productMismatch (productOf factors) value }
  else
    { correct := multisetEqual factors (expectedL.map fun p : Nat => (p : ℚ))
      expected := String.intercalate " × " (expectedL.map fun p => toString p)
      explain := .factorVerdict (multisetEqual factors (expectedL.map fun p : Nat => (p : ℚ)))
        value expectedL }

/-- Embedding of `submit`: the `"fatoracao"` grading path when
`ex.type === "fatoracao" && ex.value` (JS truthiness of `value` is
`value ≠ 0`), otherwise trimmed case-insensitive string comparison. -/
def submit (ex : Exercise) (input : String) : GradeResult :=
  if ex.type = "fatoracao" ∧ ex.value ≠ 0 then
    gradeFactorization ex.value ex.expected ex.answer input
  else
    { correct := lowerChars (trimChars input.toList) == lowerChars ex.answer.toList
      expected := ex.answer
      explain := ex.explain }

-- --------------------------------------------------
-- Theorems
-- --------------------------------------------------

theorem innerDiv_fst_eq {x d : Nat} : ∀ a ∈ (innerDiv x d).1, a = d := by
  induction x, d using innerDiv.induct with
  | case1 x d h ih =>
    rw [innerDiv, dif_pos h]
    intro a ha
    rcases List.mem_cons.mp ha with rfl | ha
    · rfl
    · exact ih a ha
  | case2 x d h =>
    rw [innerDiv, dif_neg h]
    intro a ha
    simp at ha

theorem innerDiv_prod {x d : Nat} : (innerDiv x d).1.prod * (innerDiv x d).2 = x := by
  induction x, d using innerDiv.induct with
  | case1 x d h ih =>
    rw [innerDiv, dif_pos h]
    have hdvd : d ∣ x := Nat.dvd_of_mod_eq_zero h.2.2
    calc (d :: (innerDiv (x / d) d).1).prod * (innerDiv (x / d) d).2
        = d * ((innerDiv (x / d) d).1.prod * (innerDiv (x / d) d).2) := by
          rw [List.prod_cons]; ring
      _ = d * (x / d) := by rw [ih]
      _ = x := Nat.mul_div_cancel' hdvd
  | case2 x d h =>
    rw [innerDiv, dif_neg h]; simp

theorem innerDiv_snd_pos {x d : Nat} : 1 ≤ x → 1 ≤ (innerDiv x d).2 := by
  induction x, d using innerDiv.induct with
  | case1 x d h ih =>
    intro _
    rw [innerDiv, dif_pos h]
    exact ih (Nat.one_le_div_iff (by omega) |>.mpr (Nat.le_of_dvd h.2.1 (Nat.dvd_of_mod_eq_zero h.2.2)))
  | case2 x d h =>
    intro hx
    rw [innerDiv, dif_neg h]; exact hx

theorem innerDiv_snd_le {x d : Nat} : (innerDiv x d).2 ≤ x := by
  induction x, d using innerDiv.induct with
  | case1 x d h ih =>
    rw [innerDiv, dif_pos h]
    exact le_trans ih (Nat.div_le_self x d)
  | case2 x d h =>
    rw [innerDiv, dif_neg h]

theorem innerDiv_snd_dvd {x d : Nat} : (innerDiv x d).2 ∣ x := by
  induction x, d using innerDiv.induct with
  | case1 x d h ih =>
    rw [innerDiv, dif_pos h]
    exact dvd_trans ih (Nat.div_dvd_of_dvd (Nat.dvd_of_mod_eq_zero h.2.2))
  | case2 x d h =>
    rw [innerDiv, dif_neg h]

theorem innerDiv_not_dvd {x d : Nat} : 2 ≤ d → 1 ≤ x → ¬ d ∣ (innerDiv x d).2 := by
  induction x, d using innerDiv.induct with
  | case1 x d h ih =>
    intro _ _
    rw [innerDiv, dif_pos h]
    exact ih h.1 (Nat.one_le_div_iff (by omega) |>.mpr (Nat.le_of_dvd h.2.1 (Nat.dvd_of_mod_eq_zero h.2.2)))
  | case2 x d h =>
    intro hd hx
    rw [innerDiv, dif_neg h]
    intro hdvd
    obtain ⟨c, rfl⟩ := hdvd
    exact h ⟨hd, hx, Nat.mul_mod_right d c⟩

theorem innerDiv_snd_lt {x d : Nat} (hd : 2 ≤ d) (hx : 1 ≤ x) (hdvd : x % d = 0) :
    (innerDiv x d).2 < x := by
  rw [innerDiv, dif_pos ⟨hd, hx, hdvd⟩]
  calc (innerDiv (x / d) d).2 ≤ x / d := innerDiv_snd_le
    _ < x := Nat.div_lt_self hx hd

theorem innerDiv_fst_ne_nil_dvd {x d : Nat} (h : (innerDiv x d).1 ≠ []) : d ∣ x := by
  by_cases hc : 2 ≤ d ∧ 1 ≤ x ∧ x % d = 0
  · exact Nat.dvd_of_mod_eq_zero hc.2.2
  · rw [innerDiv, dif_neg hc] at h
    simp at h

theorem loopInv_init (n : Nat) : LoopInv n 2 :=
  ⟨le_refl 2, Or.inl rfl, fun m hm2 hmd _ => absurd (lt_of_lt_of_le hmd (le_refl 2)) (by omega)⟩

theorem loopInv_step {x d : Nat} (inv : LoopInv x d) (hx : 2 ≤ x) :
    LoopInv (innerDiv x d).2 (if d = 2 then 3 else d + 2) := by
  obtain ⟨hd2, hpar, hnsf⟩ := inv
  refine ⟨by split <;> omega, ?_, ?_⟩
  · split
    · exact Or.inr rfl
    · rcases hpar with h2 | hodd
      · simp_all
      · exact Or.inr (by omega)
  · intro m hm2 hmd hdvd
    rcases Nat.lt_trichotomy m d with hlt | rfl | hgt
    · exact hnsf m hm2 hlt (hdvd.trans innerDiv_snd_dvd)
    · exact innerDiv_not_dvd hd2 (by omega) hdvd
    · have hd_ne : d ≠ 2 := by
        intro rfl2
        subst rfl2
        simp at hmd
        omega
      rw [if_neg hd_ne] at hmd
      have hm_eq : m = d + 1 := by omega
      have hdodd : d % 2 = 1 := by
        rcases hpar with h2 | hodd
        · exact absurd h2 hd_ne
        · exact hodd
      have h2m : 2 ∣ m := by omega
      have h2x : 2 ∣ x := (h2m.trans hdvd).trans innerDiv_snd_dvd
      exact hnsf 2 (le_refl 2) (by omega) h2x

theorem outerLoop_prod {x d : Nat} : 1 ≤ x → (outerLoop x d).prod = x := by
  induction x, d using outerLoop.induct with
  | case1 x d h ih =>
    intro _
    simp only [dite_eq_ite] at ih
    rw [outerLoop, dif_pos h]
    have hx' : 1 ≤ (innerDiv x d).2 := innerDiv_snd_pos (by omega)
    simp only [List.prod_append]
    rw [ih hx', innerDiv_prod]
  | case2 x d h hx =>
    intro _
    rw [outerLoop, dif_neg h, if_pos hx]
    simp
  | case3 x d h hx =>
    intro h1
    rw [outerLoop, dif_neg h, if_neg hx]
    simp
    omega

theorem outerLoop_prime {x d : Nat} : LoopInv x d → ∀ p ∈ outerLoop x d, Nat.Prime p := by
  induction x, d using outerLoop.induct with
  | case1 x d h ih =>
    intro inv p hp
    simp only [dite_eq_ite] at ih
    rw [outerLoop, dif_pos h] at hp
    rcases List.mem_append.mp hp with hfst | hrec
    · have hpd : p = d := innerDiv_fst_eq p hfst
      subst hpd
      have hdvdx : p ∣ x := innerDiv_fst_ne_nil_dvd (List.ne_nil_of_mem hfst)
      by_contra hnp
      obtain ⟨m, hmdvd, hm2, hmlt⟩ := Nat.exists_dvd_of_not_prime2 inv.1 hnp
      exact inv.2.2 m hm2 hmlt (hmdvd.trans hdvdx)
    · exact ih (loopInv_step inv h.1) p hrec
  | case2 x d h hx =>
    intro inv p hp
    rw [outerLoop, dif_neg h, if_pos hx] at hp
    simp at hp
    subst hp
    rw [Nat.prime_def_le_sqrt]
    refine ⟨by omega, fun m hm2 hmsqrt hmdvd => ?_⟩
    have hmm : m * m ≤ p := Nat.le_sqrt.mp hmsqrt
    have hddp : ¬ d * d ≤ p := fun hdd => h ⟨by omega, hdd⟩
    have hmd : m < d := by
      by_contra hge
      exact hddp (le_trans (Nat.mul_le_mul (by omega) (by omega)) hmm)
    exact inv.2.2 m hm2 hmd hmdvd
  | case3 x d h hx =>
    intro inv p hp
    rw [outerLoop, dif_neg h, if_neg hx] at hp
    simp at hp

theorem outerLoop_le {x d : Nat} : LoopInv x d → ∀ p ∈ outerLoop x d, d ≤ p := by
  induction x, d using outerLoop.induct with
  | case1 x d h ih =>
    intro inv p hp
    simp only [dite_eq_ite] at ih
    rw [outerLoop, dif_pos h] at hp
    rcases List.mem_append.mp hp with hfst | hrec
    · exact le_of_eq (innerDiv_fst_eq p hfst).symm
    · have hd' : d ≤ (if d = 2 then 3 else d + 2) := by split <;> omega
      exact le_trans hd' (ih (loopInv_step inv h.1) p hrec)
  | case2 x d h hx =>
    intro inv p hp
    rw [outerLoop, dif_neg h, if_pos hx] at hp
    simp at hp
    subst hp
    by_contra hlt
    exact inv.2.2 p (by omega) (by omega) dvd_rfl
  | case3 x d h hx =>
    intro inv p hp
    rw [outerLoop, dif_neg h, if_neg hx] at hp
    simp at hp

theorem sorted_of_all_eq {d : Nat} : ∀ l : List Nat, (∀ a ∈ l, a = d) → List.Sorted (· ≤ ·) l := by
  intro l
  induction l with
  | nil => intro _; exact List.sorted_nil
  | cons a t iht =>
    intro hall
    rw [List.sorted_cons]
    refine ⟨?_, iht fun b hb => hall b (List.mem_cons_of_mem a hb)⟩
    intro b hb
    rw [hall a (List.mem_cons_self a t), hall b (List.mem_cons_of_mem a hb)]

theorem outerLoop_sorted {x d : Nat} : LoopInv x d → List.Sorted (· ≤ ·) (outerLoop x d) := by
  induction x, d using outerLoop.induct with
  | case1 x d h ih =>
    intro inv
    rw [outerLoop, dif_pos h]
    rw [List.Sorted, List.pairwise_append]
    refine ⟨sorted_of_all_eq _ innerDiv_fst_eq, ih (loopInv_step inv h.1), ?_⟩
    intro a ha b hb
    rw [innerDiv_fst_eq a ha]
    have hd' : d ≤ (if d = 2 then 3 else d + 2) := by split <;> omega
    exact le_trans hd' (outerLoop_le (loopInv_step inv h.1) b hb)
  | case2 x d h hx =>
    intro _
    rw [outerLoop, dif_neg h, if_pos hx]
    exact List.sorted_singleton x
  | case3 x d h hx =>
    intro _
    rw [outerLoop, dif_neg h, if_neg hx]
    exact List.sorted_nil

theorem primeFactors_prod {n : Nat} (h : 1 ≤ n) : (primeFactors n).prod = n :=
  outerLoop_prod h

theorem primeFactors_prime {n : Nat} : ∀ p ∈ primeFactors n, Nat.Prime p :=
  outerLoop_prime (loopInv_init n)

theorem primeFactors_sorted (n : Nat) : List.Sorted (· ≤ ·) (primeFactors n) :=
  outerLoop_sorted (loopInv_init n)

theorem primeFactors_eq_nil {n : Nat} (h : n < 2) : primeFactors n = [] := by
  interval_cases n <;> simp [primeFactors, outerLoop]

/-- The algorithm's output is a permutation of the mathematical prime
factorization, hence (being sorted) equal to it; permutation is what the
grading claims need. -/
theorem primeFactors_perm (n : Nat) (h : 1 ≤ n) :
    List.Perm (primeFactors n) (Nat.primeFactorsList n) :=
  Nat.primeFactorsList_unique (primeFactors_prod h) primeFactors_prime

theorem isPrimeLoop_eq_isNone {n d : Nat} : isPrimeLoop n d = (factorLoop n d).isNone := by
  refine factorLoop.induct n (fun d => isPrimeLoop n d = (factorLoop n d).isNone) ?_ ?_ ?_ d
  · intro x h hmod
    rw [isPrimeLoop, if_pos h, if_pos hmod, factorLoop, if_pos h, if_pos hmod]
    rfl
  · intro x h hmod ih
    rw [isPrimeLoop, if_pos h, if_neg hmod, factorLoop, if_pos h, if_neg hmod]
    exact ih
  · intro x h
    rw [isPrimeLoop, if_neg h, factorLoop, if_neg h]
    rfl

theorem factorLoop_some {n d e : Nat} : factorLoop n d = some e → d ≤ e ∧ e ∣ n ∧ e * e ≤ n := by
  refine factorLoop.induct n (fun d => factorLoop n d = some e → d ≤ e ∧ e ∣ n ∧ e * e ≤ n) ?_ ?_ ?_ d
  · intro x h hmod hsome
    rw [factorLoop, if_pos h, if_pos hmod] at hsome
    obtain rfl : x = e := by simpa using hsome
    exact ⟨le_refl x, Nat.dvd_of_mod_eq_zero hmod, h⟩
  · intro x h hmod ih hsome
    rw [factorLoop, if_pos h, if_neg hmod] at hsome
    obtain ⟨h1, h2, h3⟩ := ih hsome
    exact ⟨by omega, h2, h3⟩
  · intro x h hsome
    rw [factorLoop, if_neg h] at hsome
    simp at hsome

theorem factorLoop_none {n d : Nat} :
    factorLoop n d = none → ∀ m, d ≤ m → (m - d) % 2 = 0 → m * m ≤ n → ¬ m ∣ n := by
  refine factorLoop.induct n
    (fun d => factorLoop n d = none → ∀ m, d ≤ m → (m - d) % 2 = 0 → m * m ≤ n → ¬ m ∣ n)
    ?_ ?_ ?_ d
  · intro x h hmod hnone
    rw [factorLoop, if_pos h, if_pos hmod] at hnone
    simp at hnone
  · intro x h hmod ih hnone m hdm hpar hmm hdvd
    rw [factorLoop, if_pos h, if_neg hmod] at hnone
    rcases eq_or_lt_of_le hdm with heq | hlt
    · subst heq
      obtain ⟨c, rfl⟩ := hdvd
      exact hmod (Nat.mul_mod_right x c)
    · exact ih hnone m (by omega) (by omega) hmm hdvd
  · intro x h _ m hdm _ hmm hdvd
    exact h (le_trans (Nat.mul_le_mul hdm hdm) hmm)

theorem two_dvd_of_even_dvd {m n : Nat} (hm : m % 2 = 0) (hdvd : m ∣ n) (hn : n % 2 = 1) : False := by
  have h2m : 2 ∣ m := Nat.dvd_of_mod_eq_zero hm
  have h2n : 2 ∣ n := h2m.trans hdvd
  omega

/-- The embedded `isPrime` agrees with mathematical primality on all of `Nat`. -/
theorem isPrime_iff (n : Nat) : isPrime n = true ↔ Nat.Prime n := by
  unfold isPrime
  by_cases h2 : n < 2
  · rw [if_pos h2]
    simp only [Bool.false_eq_true, false_iff]
    intro hp
    have := hp.two_le
    omega
  · rw [if_neg h2]
    by_cases he : n = 2
    · subst he
      simp [Nat.prime_two]
    · rw [if_neg he]
      by_cases hev : n % 2 = 0
      · rw [if_pos hev]
        simp only [Bool.false_eq_true, false_iff]
        intro hp
        rcases (Nat.Prime.eq_one_or_self_of_dvd hp 2 (Nat.dvd_of_mod_eq_zero hev)) with h1 | hn
        · omega
        · exact he hn.symm
      · rw [if_neg hev]
        constructor
        · intro hloop
          have hnone : factorLoop n 3 = none := by
            rw [isPrimeLoop_eq_isNone] at hloop
            exact Option.isNone_iff_eq_none.mp hloop
          rw [Nat.prime_def_le_sqrt]
          refine ⟨by omega, fun m hm2 hmsqrt hmdvd => ?_⟩
          have hmm : m * m ≤ n := Nat.le_sqrt.mp hmsqrt
          by_cases hmev : m % 2 = 0
          · exact two_dvd_of_even_dvd hmev hmdvd (by omega)
          · exact factorLoop_none hnone m (by omega) (by omega) hmm hmdvd
        · intro hp
          rw [isPrimeLoop_eq_isNone]
          rcases hopt : factorLoop n 3 with _ | e
          · rfl
          · exfalso
            obtain ⟨h3e, hedvd, hee⟩ := factorLoop_some hopt
            rcases Nat.Prime.eq_one_or_self_of_dvd hp e hedvd with h1 | hn
            · omega
            · subst hn
              nlinarith [hee, h3e]

theorem smallestFactor_composite {n : Nat} (h2 : 2 ≤ n) (hnp : isPrime n = false) :
    ∃ d, smallestFactor n = some d ∧ d ∣ n ∧ d ≤ Nat.sqrt n := by
  unfold smallestFactor
  rw [if_neg (by omega)]
  by_cases hev : n % 2 = 0
  · rw [if_pos hev]
    refine ⟨2, rfl, Nat.dvd_of_mod_eq_zero hev, Nat.le_sqrt.mpr ?_⟩
    have hne2 : n ≠ 2 := by
      intro rfl2
      rw [rfl2] at hnp
      simp [isPrime] at hnp
    omega
  · rw [if_neg hev]
    have hne2 : n ≠ 2 := by omega
    have hloop : isPrimeLoop n 3 = false := by
      unfold isPrime at hnp
      rw [if_neg (by omega), if_neg hne2, if_neg hev] at hnp
      exact hnp
    rw [isPrimeLoop_eq_isNone] at hloop
    rcases hopt : factorLoop n 3 with _ | e
    · rw [hopt] at hloop
      simp at hloop
    · obtain ⟨h3e, hedvd, hee⟩ := factorLoop_some hopt
      exact ⟨e, rfl, hedvd, Nat.le_sqrt.mpr hee⟩

theorem smallestFactor_odd_prime {p : Nat} (hp : Nat.Prime p) (hne : p ≠ 2) :
    smallestFactor p = none := by
  have h2 : 2 ≤ p := hp.two_le
  have hev : p % 2 ≠ 0 := by
    intro hev
    rcases Nat.Prime.eq_one_or_self_of_dvd hp 2 (Nat.dvd_of_mod_eq_zero hev) with h1 | hn
    · omega
    · exact hne hn.symm
  have hloop : isPrimeLoop p 3 = true := by
    have := (isPrime_iff p).mpr hp
    unfold isPrime at this
    rw [if_neg (by omega), if_neg hne, if_neg hev] at this
    exact this
  rw [isPrimeLoop_eq_isNone] at hloop
  unfold smallestFactor
  rw [if_neg (by omega), if_neg hev]
  exact Option.isNone_iff_eq_none.mp hloop

theorem digitSum_eq_sum_digits (n : Nat) : digitSum n = (Nat.digits 10 n).sum := by
  induction n using Nat.strong_induction_on with
  | _ n ih =>
    by_cases h0 : n = 0
    · subst h0
      rw [digitSum]
      simp
    · rw [digitSum, if_neg h0]
      rw [Nat.digits_def' (by norm_num) (by omega)]
      rw [List.sum_cons, ih (n / 10) (Nat.div_lt_self (by omega) (by omega))]

theorem divisibilityInfo_by3_iff (n : Nat) : (divisibilityInfo n).by3 = true ↔ n % 3 = 0 := by
  have h3 : 3 ∣ n ↔ 3 ∣ (Nat.digits 10 n).sum := Nat.three_dvd_iff n
  have hds : digitSum n = (Nat.digits 10 n).sum := digitSum_eq_sum_digits n
  simp only [divisibilityInfo, beq_iff_eq, hds]
  omega

theorem insertSorted_perm (x : ℚ) (l : List ℚ) :
    List.Perm (insertSorted x l) (x :: l) := by
  induction l with
  | nil => exact List.Perm.refl _
  | cons y ys ih =>
    rw [insertSorted]
    split
    · exact List.Perm.refl _
    · exact (List.Perm.cons y ih).trans (List.Perm.swap x y ys)

theorem insertSorted_sorted (x : ℚ) (l : List ℚ) (h : List.Sorted (· ≤ ·) l) :
    List.Sorted (· ≤ ·) (insertSorted x l) := by
  induction l with
  | nil => simp [insertSorted]
  | cons y ys ih =>
    rw [insertSorted]
    rw [List.sorted_cons] at h
    split
    · rename_i hxy
      rw [List.sorted_cons]
      refine ⟨?_, List.sorted_cons.mpr h⟩
      intro b hb
      rcases List.mem_cons.mp hb with rfl | hb
      · exact hxy
      · exact le_trans hxy (h.1 b hb)
    · rename_i hxy
      rw [List.sorted_cons]
      refine ⟨?_, ih h.2⟩
      intro b hb
      have hmem := (insertSorted_perm x ys).mem_iff.mp hb
      rcases List.mem_cons.mp hmem with rfl | hb'
      · exact le_of_not_le hxy
      · exact h.1 b hb'

theorem sortQ_perm (l : List ℚ) : List.Perm (sortQ l) l := by
  induction l with
  | nil => exact List.Perm.refl _
  | cons y ys ih =>
    exact (insertSorted_perm y (sortQ ys)).trans (List.Perm.cons y ih)

theorem sortQ_sorted (l : List ℚ) : List.Sorted (· ≤ ·) (sortQ l) := by
  induction l with
  | nil => simp [sortQ]
  | cons y ys ih => exact insertSorted_sorted y (sortQ ys) ih

/-- Sorting maps permutation-equal lists to equal lists. -/
theorem sortQ_eq_of_perm {a b : List ℚ} (h : List.Perm a b) : sortQ a = sortQ b :=
  List.eq_of_perm_of_sorted (((sortQ_perm a).trans h).trans (sortQ_perm b).symm)
    (sortQ_sorted a) (sortQ_sorted b)

/-- `multisetEqual` is true on permutation-equal lists (the direction the
grading claims need: the submitted multiset, being a permutation of the
expected one, passes the check). -/
theorem multisetEqual_of_perm {a b : List ℚ} (h : List.Perm a b) : multisetEqual a b = true := by
  unfold multisetEqual
  rw [Bool.and_eq_true, beq_iff_eq, beq_iff_eq]
  exact ⟨by rw [h.length_eq], sortQ_eq_of_perm h⟩

theorem digitChar_isDigit {d : Nat} (h : d < 10) : (Nat.digitChar d).isDigit = true := by
  interval_cases d <;> decide

theorem digitChar_not_ws {d : Nat} (h : d < 10) : (Nat.digitChar d).isWhitespace = false := by
  interval_cases d <;> decide

theorem digitChar_fixed {d : Nat} (h : d < 10) :
    Char.toLower (Nat.digitChar d) = Nat.digitChar d ∧
    replaceMults (Nat.digitChar d) = Nat.digitChar d ∧
    replacePunct (Nat.digitChar d) = Nat.digitChar d := by
  interval_cases d <;> exact ⟨by decide, by decide, by decide⟩

theorem charVal_digitChar {d : Nat} (h : d < 10) : charVal (Nat.digitChar d) = d := by
  interval_cases d <;> decide

theorem digitChar_not_sign {d : Nat} (h : d < 10) :
    Nat.digitChar d ≠ '-' ∧ Nat.digitChar d ≠ '+' := by
  interval_cases d <;> exact ⟨by decide, by decide⟩

theorem natReprChars_mem {n : Nat} {c : Char} (hc : c ∈ natReprChars n) :
    ∃ d, d < 10 ∧ c = Nat.digitChar d := by
  unfold natReprChars at hc
  split at hc
  · refine ⟨0, by omega, ?_⟩
    simpa using hc
  · rw [List.mem_reverse] at hc
    obtain ⟨d, hd, rfl⟩ := List.mem_map.mp hc
    exact ⟨d, Nat.digits_lt_base (by norm_num) hd, rfl⟩

theorem natReprChars_isDigit {n : Nat} : ∀ c ∈ natReprChars n, c.isDigit = true := by
  intro c hc
  obtain ⟨d, hd, rfl⟩ := natReprChars_mem hc
  exact digitChar_isDigit hd

theorem natReprChars_not_ws {n : Nat} : ∀ c ∈ natReprChars n, c.isWhitespace = false := by
  intro c hc
  obtain ⟨d, hd, rfl⟩ := natReprChars_mem hc
  exact digitChar_not_ws hd

theorem natReprChars_ne_nil (n : Nat) : natReprChars n ≠ [] := by
  unfold natReprChars
  split
  · simp
  · rename_i h0
    simp [Nat.digits_ne_nil_iff_ne_zero, h0]

theorem foldl_digitChars (ds : List Nat) (h : ∀ d ∈ ds, d < 10) : ∀ acc : Nat,
    List.foldl (fun a c => 10 * a + charVal c) acc ((ds.map Nat.digitChar).reverse)
      = acc * 10 ^ ds.length + Nat.ofDigits 10 ds := by
  induction ds with
  | nil => intro acc; simp [Nat.ofDigits]
  | cons d ds ih =>
    intro acc
    rw [List.map_cons, List.reverse_cons, List.foldl_append]
    rw [ih (fun e he => h e (List.mem_cons_of_mem d he)) acc]
    simp only [List.foldl_cons, List.foldl_nil]
    rw [charVal_digitChar (h d (List.mem_cons_self d ds)), Nat.ofDigits_cons]
    rw [List.length_cons, pow_succ]
    ring

theorem digitsVal_natReprChars (n : Nat) : digitsVal (natReprChars n) = n := by
  unfold natReprChars digitsVal
  split
  · rename_i h0
    subst h0
    decide
  · rw [foldl_digitChars _ (fun d hd => Nat.digits_lt_base (by norm_num) hd) 0]
    simp [Nat.ofDigits_digits]

theorem jsNumber_all_digits {cs : List Char} (hne : cs ≠ [])
    (hdig : ∀ c ∈ cs, c.isDigit = true) : jsNumber? cs = some ((digitsVal cs : ℚ)) := by
  have hpu : parseUnsigned cs = some ((digitsVal cs : ℚ)) := by
    rw [parseUnsigned, if_pos ⟨hne, List.all_eq_true.mpr hdig⟩]
  match cs, hne with
  | c :: rest, _ =>
    have hc : c.isDigit = true := hdig c (List.mem_cons_self c rest)
    have hcm : c ≠ '-' := by
      intro he
      rw [he] at hc
      exact absurd hc (by decide)
    have hcp : c ≠ '+' := by
      intro he
      rw [he] at hc
      exact absurd hc (by decide)
    rw [jsNumber?]
    rw [if_neg hcm, if_neg hcp]
    exact hpu

theorem jsNumber_natReprChars (n : Nat) : jsNumber? (natReprChars n) = some ((n : ℚ)) := by
  rw [jsNumber_all_digits (natReprChars_ne_nil n) natReprChars_isDigit,
    digitsVal_natReprChars]

theorem tokenizeAux_nonws {t : List Char} (hnws : ∀ c ∈ t, c.isWhitespace = false) :
    ∀ acc rest, tokenizeAux acc (t ++ rest) = tokenizeAux (t.reverse ++ acc) rest := by
  induction t with
  | nil => intro acc rest; simp
  | cons c t' ih =>
    intro acc rest
    rw [List.cons_append, tokenizeAux]
    rw [hnws c (List.mem_cons_self c t')]
    simp only [Bool.false_eq_true, if_false]
    rw [ih (fun e he => hnws e (List.mem_cons_of_mem c he)) (c :: acc) rest]
    simp

theorem tokenizeAux_ws {s : List Char} (hws : ∀ c ∈ s, c.isWhitespace = true) (hne : s ≠ []) :
    ∀ acc rest, tokenizeAux acc (s ++ rest) =
      if acc.isEmpty then tokenizeAux [] rest else acc.reverse :: tokenizeAux [] rest := by
  induction s with
  | nil => exact absurd rfl hne
  | cons c s' ih =>
    intro acc rest
    rw [List.cons_append, tokenizeAux]
    rw [hws c (List.mem_cons_self c s')]
    simp only [if_true]
    have hrec : tokenizeAux [] (s' ++ rest) = tokenizeAux [] rest := by
      rcases List.eq_nil_or_concat s' with rfl | _
      · rfl
      · have hs' : s' ≠ [] := by
          rename_i hcat
          obtain ⟨l, a, rfl⟩ := hcat
          simp
        rw [ih (fun e he => hws e (List.mem_cons_of_mem c he)) hs' [] rest]
        simp
    split <;> rw [hrec]

theorem tokenize_joinSep {ts : List (List Char)}
    (hts : ∀ t ∈ ts, t ≠ [] ∧ ∀ c ∈ t, c.isWhitespace = false)
    {sep : List Char} (hsep : sep ≠ []) (hws : ∀ c ∈ sep, c.isWhitespace = true) :
    ts ≠ [] → tokenize (joinSep sep ts) = ts := by
  induction ts with
  | nil => intro h; exact absurd rfl h
  | cons t ts' ih =>
    intro _
    obtain ⟨htne, htnws⟩ := hts t (List.mem_cons_self t ts')
    rcases hts' : ts' with _ | ⟨u, us⟩
    · rw [joinSep, tokenize]
      rw [show t = t ++ ([] : List Char) from (List.append_nil t).symm]
      rw [tokenizeAux_nonws htnws [] []]
      rw [tokenizeAux]
      have : (t.reverse ++ []).isEmpty = false := by
        simp [List.isEmpty_iff, htne]
      rw [this]
      simp [htne]
    · subst hts'
      rw [show joinSep sep (t :: u :: us) = t ++ sep ++ joinSep sep (u :: us) from rfl]
      rw [tokenize, List.append_assoc, tokenizeAux_nonws htnws [] (sep ++ joinSep sep (u :: us))]
      rw [tokenizeAux_ws hws hsep (t.reverse ++ []) (joinSep sep (u :: us))]
      have hemp : (t.reverse ++ []).isEmpty = false := by
        simp [List.isEmpty_iff, htne]
      rw [hemp]
      simp only [Bool.false_eq_true, if_false, List.append_nil, List.reverse_reverse]
      rw [show tokenizeAux [] (joinSep sep (u :: us)) = tokenize (joinSep sep (u :: us)) from rfl]
      rw [ih (fun v hv => hts v (List.mem_cons_of_mem t hv)) (by simp)]

theorem map_fixed {f : Char → Char} : ∀ {t : List Char}, (∀ c ∈ t, f c = c) → t.map f = t := by
  intro t
  induction t with
  | nil => intro _; rfl
  | cons c t' ih =>
    intro h
    rw [List.map_cons, h c (List.mem_cons_self c t'), ih (fun e he => h e (List.mem_cons_of_mem c he))]

theorem ws_fixed {c : Char} (h : c.isWhitespace = true) :
    Char.toLower c = c ∧ replaceMults c = c ∧ replacePunct c = c := by
  have hc : c = ' ' ∨ c = '\t' ∨ c = '\r' ∨ c = '\n' := by
    simpa [Char.isWhitespace, Bool.or_eq_true, beq_iff_eq, or_assoc] using h
  rcases hc with rfl | rfl | rfl | rfl <;> exact ⟨by decide, by decide, by decide⟩

theorem cleanedAll_joinSep (sep : List Char) :
    ∀ ts : List (List Char), cleanedAll (joinSep sep ts) = joinSep (cleanedAll sep) (ts.map cleanedAll) := by
  intro ts
  induction ts with
  | nil => rfl
  | cons t ts' ih =>
    rcases ts' with _ | ⟨u, us⟩
    · rfl
    · rw [show joinSep sep (t :: u :: us) = t ++ sep ++ joinSep sep (u :: us) from rfl]
      rw [show (t :: u :: us).map cleanedAll
          = cleanedAll t :: (u :: us).map cleanedAll from rfl]
      rw [show joinSep (cleanedAll sep) (cleanedAll t :: (u :: us).map cleanedAll)
          = cleanedAll t ++ cleanedAll sep ++ joinSep (cleanedAll sep) ((u :: us).map cleanedAll) from rfl]
      rw [← ih]
      simp [cleanedAll, List.map_append]

theorem cleanedAll_natReprChars (n : Nat) : cleanedAll (natReprChars n) = natReprChars n := by
  unfold cleanedAll
  have h1 : (natReprChars n).map Char.toLower = natReprChars n :=
    map_fixed fun c hc => by
      obtain ⟨d, hd, rfl⟩ := natReprChars_mem hc
      exact (digitChar_fixed hd).1
  rw [h1]
  have h2 : (natReprChars n).map replaceMults = natReprChars n :=
    map_fixed fun c hc => by
      obtain ⟨d, hd, rfl⟩ := natReprChars_mem hc
      exact (digitChar_fixed hd).2.1
  rw [h2]
  exact map_fixed fun c hc => by
    obtain ⟨d, hd, rfl⟩ := natReprChars_mem hc
    exact (digitChar_fixed hd).2.2

theorem cleanedAll_ws {sep : List Char} (h : ∀ c ∈ sep, c.isWhitespace = true) :
    cleanedAll sep = sep := by
  unfold cleanedAll
  have h1 : sep.map Char.toLower = sep := map_fixed fun c hc => (ws_fixed (h c hc)).1
  rw [h1]
  have h2 : sep.map replaceMults = sep := map_fixed fun c hc => (ws_fixed (h c hc)).2.1
  rw [h2]
  exact map_fixed fun c hc => (ws_fixed (h c hc)).2.2

theorem filterMap_natReprChars : ∀ l : List Nat,
    List.filterMap jsNumber? (l.map natReprChars) = l.map (fun n => (n : ℚ)) := by
  intro l
  induction l with
  | nil => rfl
  | cons n l' ih =>
    simp [List.filterMap_cons, jsNumber_natReprChars n, ih]

/-- The round trip at the heart of the normalizer claim: parsing the join of
decimal numerals with an accepted separator recovers the numbers, in order. -/
theorem normalizeCore_joinSep (l : List Nat) (sep : List Char) (hl : l ≠ [])
    (hsep : sep ∈ [['x'], ['×'], [','], [';']] ∨ (sep ≠ [] ∧ ∀ c ∈ sep, c.isWhitespace = true)) :
    normalizeCore (joinSep sep (l.map natReprChars)) = l.map (fun n => (n : ℚ)) := by
  have hsep2 : cleanedAll sep ≠ [] ∧ ∀ c ∈ cleanedAll sep, c.isWhitespace = true := by
    rcases hsep with h4 | ⟨hne, hws⟩
    · simp only [List.mem_cons, List.not_mem_nil, or_false] at h4
      rcases h4 with rfl | rfl | rfl | rfl <;> exact ⟨by decide, by decide⟩
    · rw [cleanedAll_ws hws]
      exact ⟨hne, hws⟩
  unfold normalizeCore
  rw [cleanedAll_joinSep]
  have htok : (l.map natReprChars).map cleanedAll = l.map natReprChars := by
    rw [List.map_map]
    exact List.map_congr_left fun n _ => cleanedAll_natReprChars n
  rw [htok]
  rw [tokenize_joinSep (fun t ht => ?_) hsep2.1 hsep2.2 (by simpa using hl)]
  · exact filterMap_natReprChars l
  · obtain ⟨n, _, rfl⟩ := List.mem_map.mp ht
    exact ⟨natReprChars_ne_nil n, natReprChars_not_ws⟩

theorem productOf_eq_prod (l : List ℚ) : productOf l = l.prod := by
  unfold productOf
  have key : ∀ (l' : List ℚ) (acc : ℚ), List.foldl (fun acc v => acc * v) acc l' = acc * l'.prod := by
    intro l'
    induction l' with
    | nil => intro acc; simp
    | cons y ys ih =>
      intro acc
      rw [List.foldl_cons, ih (acc * y), List.prod_cons, mul_assoc]
  rw [key l 1, one_mul]

/-- A parsed value that passed the integer-and-`≥ 2` check is the cast of
the natural number the grading reads back from it. -/
theorem cast_ratToNat {k : ℚ} (hden : k.den = 1) (h2 : (2 : ℚ) ≤ k) :
    ((ratToNat k : Nat) : ℚ) = k := by
  have hnum : (k.num : ℚ) = k := (Rat.den_eq_one_iff k).mp hden
  have hpos : 0 ≤ k.num := Rat.num_nonneg.mpr (le_trans (by norm_num) h2)
  unfold ratToNat
  rw [show ((k.num.toNat : Nat) : ℚ) = ((k.num.toNat : Int) : ℚ) by push_cast; ring]
  rw [Int.toNat_of_nonneg hpos, hnum]

theorem factors_eq_cast {factors : List ℚ} (h : ∀ k ∈ factors, k.den = 1 ∧ (2 : ℚ) ≤ k) :
    (factors.map ratToNat).map (fun m : Nat => (m : ℚ)) = factors := by
  rw [List.map_map]
  exact (List.map_congr_left fun k hk =>
    cast_ratToNat (h k hk).1 (h k hk).2).trans (List.map_id factors)

-- --------------------------------------------------
-- The claims
-- --------------------------------------------------

/-- C6: for every integer `n` in `[0, 1000]`, `isPrime n` is true iff `n` is
prime (so in particular it is false for `n < 2`, true for `n = 2`, and false
for even `n > 2`). -/
theorem claim_C6 (n : Nat) (h : n ≤ 1000) : isPrime n = true ↔ Nat.Prime n :=
  isPrime_iff n

theorem claim_C6_witness : 7 ≤ 1000 ∧ (isPrime 7 = true ↔ Nat.Prime 7) :=
  ⟨by decide, claim_C6 7 (by decide)⟩

/-- C2 counterexample: `2` is prime, yet `smallestFactor 2` is `some 2`, not
`none` — the `n % 2 === 0` branch fires before primality is considered, so
the claim's "for every prime `n` (including `n = 2`), `smallestFactor n` is
none" is false at `n = 2`. -/
theorem claim_C2_counterexample : Nat.Prime 2 ∧ smallestFactor 2 = some 2 := by
  constructor
  · norm_num
  · rfl

/-- C2 (amended): for every `n ≥ 2` with `isPrime n` false, `smallestFactor n`
is a divisor of `n` that is at most `√n`; for every *odd* prime the result is
`none`; for the even prime `2` the result is `some 2` (the even branch fires
first). -/
theorem claim_C2 :
    (∀ n, 2 ≤ n → isPrime n = false →
      ∃ d, smallestFactor n = some d ∧ d ∣ n ∧ d ≤ Nat.sqrt n) ∧
    (∀ p, Nat.Prime p → p ≠ 2 → smallestFactor p = none) ∧
    smallestFactor 2 = some 2 :=
  ⟨fun _ h2 hnp => smallestFactor_composite h2 hnp,
   fun _ hp hne => smallestFactor_odd_prime hp hne,
   rfl⟩

theorem claim_C2_witness :
    (2 ≤ 9 ∧ isPrime 9 = false ∧ ∃ d, smallestFactor 9 = some d ∧ d ∣ 9 ∧ d ≤ Nat.sqrt 9) ∧
    (Nat.Prime 7 ∧ 7 ≠ 2 ∧ smallestFactor 7 = none) :=
  ⟨⟨by decide, by simp [isPrime, isPrimeLoop],
    claim_C2.1 9 (by decide) (by simp [isPrime, isPrimeLoop])⟩,
   ⟨by norm_num, by decide, claim_C2.2.1 7 (by norm_num) (by decide)⟩⟩

/-- C3: for every `n ≥ 2`, `primeFactors n` is sorted ascending, all its
elements are prime, and their product is `n`; for `n < 2` it is empty. -/
theorem claim_C3 (n : Nat) :
    (2 ≤ n →
      List.Sorted (· ≤ ·) (primeFactors n) ∧
      (∀ p ∈ primeFactors n, Nat.Prime p) ∧
      (primeFactors n).prod = n) ∧
    (n < 2 → primeFactors n = []) :=
  ⟨fun h2 => ⟨primeFactors_sorted n, primeFactors_prime, primeFactors_prod (by omega)⟩,
   fun hlt => primeFactors_eq_nil hlt⟩

theorem claim_C3_witness :
    (2 ≤ 12 ∧
      (List.Sorted (· ≤ ·) (primeFactors 12) ∧
        (∀ p ∈ primeFactors 12, Nat.Prime p) ∧
        (primeFactors 12).prod = 12)) ∧
    ((0 : Nat) < 2 ∧ primeFactors 0 = []) :=
  ⟨⟨by decide, (claim_C3 12).1 (by decide)⟩, ⟨by decide, (claim_C3 0).2 (by decide)⟩⟩

/-- C9: the digit-sum-based flag `(divisibilityInfo n).by3` agrees with the
direct modulo test: it is true iff `n % 3 = 0`. -/
theorem claim_C9 (n : Nat) : (divisibilityInfo n).by3 = true ↔ n % 3 = 0 :=
  divisibilityInfo_by3_iff n

/-- C8: for a generated divisibility exercise with `n` in `[10, 199]` and
divisor `d` in `{2, 3, 5, 10}`, the canonical answer is the affirmative
(`"S"`) iff `n % d = 0`, and for `d = 3` the explanation cites the digit sum
of `n`; at `n = 15, d = 3` the explanation carries the digit sum `6`
(`1 + 5`) and the answer is affirmative. -/
theorem claim_C8 :
    (∀ n d, 10 ≤ n → n ≤ 199 → d ∈ divisibilidadeDivisors →
      ((genDivisibilidade n d).answer = "S" ↔ n % d = 0) ∧
      (d = 3 →
        (genDivisibilidade n d).explain = .digitSumMsg n (digitSum n) (decide (n % 3 = 0)))) ∧
    (genDivisibilidade 15 3).answer = "S" ∧
    (genDivisibilidade 15 3).explain = .digitSumMsg 15 6 true := by
  refine ⟨fun n d _ _ _ => ⟨?_, ?_⟩, ?_, ?_⟩
  · unfold genDivisibilidade
    by_cases h : n % d = 0
    · simp [h]
    · simp [h]
  · intro h3
    subst h3
    rfl
  · simp [genDivisibilidade]
  · have h6 : digitSum 15 = 6 := by simp [digitSum]
    have : (genDivisibilidade 15 3).explain = .digitSumMsg 15 (digitSum 15) (decide (15 % 3 = 0)) := rfl
    rw [this, h6]
    rfl

theorem claim_C8_witness :
    10 ≤ 15 ∧ 15 ≤ 199 ∧ 3 ∈ divisibilidadeDivisors ∧
    (((genDivisibilidade 15 3).answer = "S") ↔ 15 % 3 = 0) :=
  ⟨by decide, by decide, by decide, (claim_C8.1 15 3 (by decide) (by decide) (by decide)).1⟩

/-- C5: for every non-factorization exercise, grading declares correct iff
the submitted text, whitespace-trimmed and case-folded, equals the canonical
answer case-folded, as a string; for the exponentiation exercise with base 2
and exponent 3 the canonical answer is `"8"`, `"8"` is correct and `"08"` is
not (string, not numeric, equality). -/
theorem claim_C5 :
    (∀ (ex : Exercise) (input : String), ex.type ≠ "fatoracao" →
      ((submit ex input).correct = true ↔
        lowerChars (trimChars input.toList) = lowerChars ex.answer.toList)) ∧
    (genPotenciacao 2 3).answer = "8" ∧
    (submit (genPotenciacao 2 3) "8").correct = true ∧
    (submit (genPotenciacao 2 3) "08").correct = false := by
  refine ⟨fun ex input hty => ?_, by decide, by decide, by decide⟩
  rw [submit, if_neg (fun hc => hty hc.1)]
  exact beq_iff_eq

theorem claim_C5_witness :
    (genPotenciacao 2 3).type ≠ "fatoracao" ∧
    ((submit (genPotenciacao 2 3) "8").correct = true ↔
      lowerChars (trimChars "8".toList) = lowerChars (genPotenciacao 2 3).answer.toList) :=
  ⟨by decide, claim_C5.1 (genPotenciacao 2 3) "8" (by decide)⟩

/-- C10: `normalizeFactorsInput` does not restrict its output to integers:
`"2.5"` parses to the non-integer `5/2` and `"-3"` to the negative `-3`
(each a finite number — the rational model only ever returns finite values,
parse failures being dropped); it is the grading layer's integer-and-`≥ 2`
check that rejects both, with `correct = false`. -/
theorem claim_C10 :
    normalizeFactorsInput "2.5" = [(5 : ℚ) / 2] ∧ ((5 : ℚ) / 2).den ≠ 1 ∧
    normalizeFactorsInput "-3" = [(-3 : ℚ)] ∧ (-3 : ℚ) < 0 ∧
    (submit (genFatoracao 12) "2.5").correct = false ∧
    (submit (genFatoracao 12) "2.5").explain = .useIntegersGE2 ∧
    (submit (genFatoracao 12) "-3").correct = false ∧
    (submit (genFatoracao 12) "-3").explain = .useIntegersGE2 := by
  have h52 : (5 : ℚ) / 2 = mkRat 5 2 := by
    rw [Rat.mkRat_eq_div]
    norm_num
  refine ⟨?_, ?_, by decide, by decide, by decide, by decide, by decide, by decide⟩
  · rw [h52]
    decide
  · rw [h52]
    decide

/-- C4: factorization grading is total and applies the validation rules in
strict order, short-circuiting at the first failure with `correct = false`
and that rule's own diagnostic: empty parse → format hint; a parsed value
that is not an integer `≥ 2` → the integers-`≥ 2` instruction; a non-prime
parsed value → the message listing the offending non-primes; product
different from the subject value → the message carrying the computed product
and the required value. -/
theorem claim_C4 (ex : Exercise) (input : String)
    (hty : ex.type = "fatoracao") (hval : ex.value ≠ 0) :
    ((normalizeFactorsInput input).length = 0 →
      submit ex input =
        { correct := false, expected := ex.answer, explain := .formatHint }) ∧
    ((normalizeFactorsInput input).length ≠ 0 →
      ¬ (∀ k ∈ normalizeFactorsInput input, k.den = 1 ∧ (2 : ℚ) ≤ k) →
      submit ex input =
        { correct := false, expected := ex.answer, explain := .useIntegersGE2 }) ∧
    ((normalizeFactorsInput input).length ≠ 0 →
      (∀ k ∈ normalizeFactorsInput input, k.den = 1 ∧ (2 : ℚ) ≤ k) →
      (∃ k ∈ normalizeFactorsInput input, isPrime (ratToNat k) = false) →
      submit ex input =
        { correct := false, expected := ex.answer
          explain := .nonPrimes
            ((normalizeFactorsInput input).filter fun k => isPrime (ratToNat k) = false) }) ∧
    ((normalizeFactorsInput input).length ≠ 0 →
      (∀ k ∈ normalizeFactorsInput input, k.den = 1 ∧ (2 : ℚ) ≤ k) →
      ¬ (∃ k ∈ normalizeFactorsInput input, isPrime (ratToNat k) = false) →
      productOf (normalizeFactorsInput input) ≠ (ex.value : ℚ) →
      submit ex input =
        { correct := false, expected := ex.answer
          explain := .productMismatch (productOf (normalizeFactorsInput input)) ex.value }) := by
  rw [submit, if_pos ⟨hty, hval⟩]
  unfold gradeFactorization
  refine ⟨fun h0 => ?_, fun h0 hint => ?_, fun h0 hint hnp => ?_, fun h0 hint hnp hprod => ?_⟩
  · rw [if_pos h0]
  · rw [if_neg h0, if_pos hint]
  · rw [if_neg h0, if_neg (not_not_intro hint), if_pos hnp]
  · rw [if_neg h0, if_neg (not_not_intro hint), if_neg hnp, if_pos hprod]

theorem claim_C4_witness :
    (genFatoracao 12).type = "fatoracao" ∧ (genFatoracao 12).value ≠ 0 ∧
    (normalizeFactorsInput "2.5").length ≠ 0 ∧
    ¬ (∀ k ∈ normalizeFactorsInput "2.5", k.den = 1 ∧ (2 : ℚ) ≤ k) ∧
    submit (genFatoracao 12) "2.5" =
      { correct := false, expected := (genFatoracao 12).answer, explain := .useIntegersGE2 } :=
  ⟨rfl, by decide, by decide, by decide,
   (claim_C4 (genFatoracao 12) "2.5" rfl (by decide)).2.1 (by decide) (by decide)⟩

/-- C1: for every factorization exercise (subject value drawn from the pool,
expected factors `primeFactors n`) and every submitted text whose parsed
values are all integers `≥ 2`, all prime, with product exactly `n`, grading
returns `correct = true`: by uniqueness of prime factorization the submitted
multiset is a permutation of the expected one, so the multiset-mismatch
branch never fires. -/
theorem claim_C1 (n : Nat) (hn : n ∈ fatoracaoPool) (input : String)
    (hint : ∀ k ∈ normalizeFactorsInput input, k.den = 1 ∧ (2 : ℚ) ≤ k)
    (hprime : ∀ k ∈ normalizeFactorsInput input, Nat.Prime (ratToNat k))
    (hprod : productOf (normalizeFactorsInput input) = (n : ℚ)) :
    (submit (genFatoracao n) input).correct = true ∧
    (submit (genFatoracao n) input).explain = .factorVerdict true n (primeFactors n) := by
  have h2n : 2 ≤ n := by
    simp only [fatoracaoPool, List.mem_cons, List.not_mem_nil, or_false] at hn
    rcases hn with rfl | rfl | rfl | rfl | rfl | rfl | rfl | rfl <;> omega
  have hperm : List.Perm (normalizeFactorsInput input)
      ((primeFactors n).map fun m : Nat => (m : ℚ)) := by
    have hcast : ((normalizeFactorsInput input).map ratToNat).map (fun m : Nat => (m : ℚ))
        = normalizeFactorsInput input := factors_eq_cast hint
    have hksprod : ((normalizeFactorsInput input).map ratToNat).prod = n := by
      have : ((((normalizeFactorsInput input).map ratToNat).prod : Nat) : ℚ) = (n : ℚ) := by
        rw [Nat.cast_list_prod, hcast, ← productOf_eq_prod, hprod]
      exact_mod_cast this
    have hksprime : ∀ p ∈ (normalizeFactorsInput input).map ratToNat, Nat.Prime p := by
      intro p hp
      obtain ⟨k, hk, rfl⟩ := List.mem_map.mp hp
      exact hprime k hk
    have hks : List.Perm ((normalizeFactorsInput input).map ratToNat) (primeFactors n) :=
      (Nat.primeFactorsList_unique hksprod hksprime).trans (primeFactors_perm n (by omega)).symm
    have hmapped := hks.map (fun m : Nat => (m : ℚ))
    rw [hcast] at hmapped
    exact hmapped
  have hmeq : multisetEqual (normalizeFactorsInput input)
      ((primeFactors n).map fun m : Nat => (m : ℚ)) = true := multisetEqual_of_perm hperm
  have hne : (normalizeFactorsInput input).length ≠ 0 := by
    intro h0
    rw [List.length_eq_zero] at h0
    rw [h0] at hprod
    have hone : productOf ([] : List ℚ) = 1 := rfl
    rw [hone] at hprod
    have hn1 : (n : ℚ) ≠ 1 := by
      exact_mod_cast (by omega : n ≠ 1)
    exact hn1 hprod.symm
  have hnp : ¬ ∃ k ∈ normalizeFactorsInput input, isPrime (ratToNat k) = false := by
    rintro ⟨k, hk, hfalse⟩
    rw [(isPrime_iff (ratToNat k)).mpr (hprime k hk)] at hfalse
    exact absurd hfalse (by decide)
  rw [submit, if_pos ⟨rfl, show (genFatoracao n).value ≠ 0 from by
    simp only [genFatoracao]
    omega⟩]
  unfold gradeFactorization
  rw [if_neg hne, if_neg (not_not_intro hint), if_neg hnp]
  rw [if_neg (show ¬ productOf (normalizeFactorsInput input) ≠ ((genFatoracao n).value : ℚ)
    from not_not_intro (by simp only [genFatoracao]; exact hprod))]
  exact ⟨hmeq, congrArg (fun b => ExplainMsg.factorVerdict b n (primeFactors n)) hmeq⟩

theorem claim_C1_witness :
    12 ∈ fatoracaoPool ∧
    (∀ k ∈ normalizeFactorsInput "3x2x2", k.den = 1 ∧ (2 : ℚ) ≤ k) ∧
    (∀ k ∈ normalizeFactorsInput "3x2x2", Nat.Prime (ratToNat k)) ∧
    productOf (normalizeFactorsInput "3x2x2") = (12 : ℚ) ∧
    (submit (genFatoracao 12) "3x2x2").correct = true := by
  have hprod : productOf (normalizeFactorsInput "3x2x2") = (12 : ℚ) := by
    rw [show normalizeFactorsInput "3x2x2" = [(3 : ℚ), 2, 2] from by decide]
    norm_num [productOf, List.foldl]
  exact ⟨by decide, by decide, by decide, hprod,
    (claim_C1 12 (by decide) "3x2x2" (by decide) (by decide) hprod).1⟩

/-- C7: for every non-empty sequence of integers `≥ 2` joined with any
accepted separator (`"x"`, `"×"`, `","`, `";"`, or a non-empty run of
whitespace), `normalizeFactorsInput` parses the joined string back to
exactly the original sequence, in order. -/
theorem claim_C7 (l : List Nat) (sep : List Char) (hl : l ≠ []) (h2 : ∀ n ∈ l, 2 ≤ n)
    (hsep : sep ∈ [['x'], ['×'], [','], [';']] ∨ (sep ≠ [] ∧ ∀ c ∈ sep, c.isWhitespace = true)) :
    normalizeFactorsInput ⟨joinSep sep (l.map natReprChars)⟩ = l.map (fun n => (n : ℚ)) :=
  normalizeCore_joinSep l sep hl hsep

theorem claim_C7_witness :
    ([2, 3] : List Nat) ≠ [] ∧ (∀ n ∈ ([2, 3] : List Nat), 2 ≤ n) ∧
    (['x'] ∈ [['x'], ['×'], [','], [';']] ∨
      ((['x'] : List Char) ≠ [] ∧ ∀ c ∈ (['x'] : List Char), c.isWhitespace = true)) ∧
    normalizeFactorsInput ⟨joinSep ['x'] (([2, 3] : List Nat).map natReprChars)⟩
      = ([2, 3] : List Nat).map (fun n => (n : ℚ)) :=
  ⟨by decide, by decide, Or.inl (by decide),
   claim_C7 [2, 3] ['x'] (by decide) (by decide) (Or.inl (by decide))⟩

end MathStudies
